import Mathlib

/-!
Verification of the multi-factor equity paper-trading system
(`trading_system.py`).

The embedding below translates the Python classes `PortfolioManager`
(cash/positions ledger, trade execution, rebalancing) and
`LiveStrategyEngine` (momentum signal calculation, rebalance timing)
into Lean.  Money amounts and prices are exact rationals, share counts
are integers, and Python dictionaries become association lists with
in-place update semantics (an update keeps the entry's place, a fresh
key is appended at the end, deleting removes the key).
-/

namespace Trading

abbrev Ticker := String

/-- A timezone-aware timestamp, split into the calendar fields the code
reads (`month`) and the linear time used by `timedelta` arithmetic
(`epochDay` plus `secondOfDay`). `year` is carried along but never read
by the scheduler, mirroring `datetime.month` access. -/
structure Timestamp where
  year : Int
  month : Nat
  epochDay : Int
  secondOfDay : Nat
  deriving DecidableEq, Repr

/-- Total seconds since the epoch, the quantity `datetime` subtraction
is based on. -/
def Timestamp.epochSeconds (t : Timestamp) : Int :=
  t.epochDay * 86400 + t.secondOfDay

/-- Python `timedelta.days`: the floor of the elapsed seconds divided
by 86400 (timedelta stores a normalised `days` component, rounding
toward minus infinity). -/
def timedeltaDays (now last : Timestamp) : Int :=
  (now.epochSeconds - last.epochSeconds).fdiv 86400

/-- One record of `trade_history` (dict appended by `execute_trade`). -/
structure Trade where
  timestamp : Timestamp
  ticker : Ticker
  shares : Int
  price : ℚ
  cost : ℚ
  cash_after : ℚ
  deriving DecidableEq, Repr

/-- One record of `portfolio_value_history` (appended by
`rebalance_portfolio`). -/
structure ValRecord where
  timestamp : Timestamp
  value : ℚ
  ret : ℚ
  deriving DecidableEq, Repr

/-- The mutable state of `PortfolioManager`. -/
structure Ledger where
  initial_capital : ℚ
  cash : ℚ
  positions : List (Ticker × Int)
  trade_history : List Trade
  portfolio_value_history : List ValRecord
  deriving DecidableEq, Repr

/-- Dictionary lookup: value of the first entry with the given key. -/
def findVal {α : Type} : List (Ticker × α) → Ticker → Option α
  | [], _ => none
  | e :: rest, t => if e.1 = t then some e.2 else findVal rest t

/-- `positions.get(ticker, 0)`. -/
def posShares (ps : List (Ticker × Int)) (t : Ticker) : Int :=
  (findVal ps t).getD 0

/-- Dictionary update `d[k] = v`: replaces the first entry with key `k`
in place, or appends a new entry at the end. -/
def updatePos {α : Type} : List (Ticker × α) → Ticker → α → List (Ticker × α)
  | [], t, v => [(t, v)]
  | e :: rest, t, v => if e.1 = t then (t, v) :: rest else e :: updatePos rest t v

/-- Dictionary deletion `del d[k]`. -/
def erasePos {α : Type} (ps : List (Ticker × α)) (t : Ticker) : List (Ticker × α) :=
  ps.filter (fun e => e.1 ≠ t)

/-- Market value of the held positions under `current_prices`
(a missing quote contributes `0`, via `current_prices.get(ticker, 0)`). -/
def posValue (ps : List (Ticker × Int)) (cp : List (Ticker × ℚ)) : ℚ :=
  (ps.map (fun e => (e.2 : ℚ) * ((findVal cp e.1).getD 0))).sum

/-- `PortfolioManager.get_portfolio_value`. -/
def get_portfolio_value (l : Ledger) (cp : List (Ticker × ℚ)) : ℚ :=
  l.cash + posValue l.positions cp

/-- `PortfolioManager.execute_trade`: `cash -= shares*price`, add the
shares to the position (creating the key if absent), delete the key if
the resulting position is exactly zero, and append a trade record whose
`cash_after` is the ledger's cash after the update. -/
def execute_trade (l : Ledger) (ticker : Ticker) (shares : Int) (price : ℚ)
    (ts : Timestamp) : Ledger :=
  let cost : ℚ := (shares : ℚ) * price
  let newCash : ℚ := l.cash - cost
  let ns : Int := posShares l.positions ticker + shares
  let ps1 := updatePos l.positions ticker ns
  let ps2 := if ns = 0 then erasePos ps1 ticker else ps1
  { l with
    cash := newCash
    positions := ps2
    trade_history := l.trade_history ++
      [⟨ts, ticker, shares, price, cost, newCash⟩] }

/-- Python `int()` applied to the exact value of a quotient: truncation
toward zero. -/
def pyInt (q : ℚ) : Int := q.num.tdiv q.den

/-- One entry of the `target_shares` dictionary: a ticker without a
known nonzero price is skipped (`continue`), the rest get
`int(total_value * weight / price)`. -/
def targetEntry (total_value : ℚ) (cp : List (Ticker × ℚ)) (e : Ticker × ℚ) :
    Option (Ticker × Int) :=
  match findVal cp e.1 with
  | none => none
  | some p => if p = 0 then none else some (e.1, pyInt (total_value * e.2 / p))

/-- The `target_shares` dictionary built by `rebalance_portfolio`. -/
def targetSharesOf (total_value : ℚ) (tp cp : List (Ticker × ℚ)) :
    List (Ticker × Int) :=
  tp.filterMap (targetEntry total_value cp)

/-- The body of the reconciliation loop of `rebalance_portfolio` for one
ticker: trade the delta to the target when it is nonzero and the ticker
has a quote. -/
def rebalanceStep (cp : List (Ticker × ℚ)) (tsh : List (Ticker × Int))
    (ts : Timestamp) (acc : Ledger) (t : Ticker) : Ledger :=
  let cur := posShares acc.positions t
  let tgt := (findVal tsh t).getD 0
  let delta := tgt - cur
  match findVal cp t with
  | some p => if delta = 0 then acc else execute_trade acc t delta p ts
  | none => acc

/-- The trading part of `rebalance_portfolio`: compute total value,
derive target share counts, and reconcile the union of held and
targeted tickers (`all_tickers`, iterated in a fixed duplicate-free
order standing for Python's set iteration). -/
def rebalanceFold (l : Ledger) (tp cp : List (Ticker × ℚ)) (ts : Timestamp) : Ledger :=
  let total_value := get_portfolio_value l cp
  let tsh := targetSharesOf total_value tp cp
  let all_tickers := (l.positions.map Prod.fst ++ tsh.map Prod.fst).dedup
  all_tickers.foldl (rebalanceStep cp tsh ts) l

/-- `PortfolioManager.rebalance_portfolio`: run the reconciliation loop,
then append a valuation record computed from the updated ledger. -/
def rebalance_portfolio (l : Ledger) (tp cp : List (Ticker × ℚ))
    (ts : Timestamp) : Ledger :=
  let l1 := rebalanceFold l tp cp ts
  let new_value := get_portfolio_value l1 cp
  { l1 with
    portfolio_value_history := l1.portfolio_value_history ++
      [⟨ts, new_value, (new_value / l.initial_capital - 1) * 100⟩] }

/-- `LiveStrategyEngine.should_rebalance`, with the current time and the
last-rebalance time passed explicitly. -/
def should_rebalance (freq : String) (last : Option Timestamp)
    (now : Timestamp) : Bool :=
  match last with
  | none => true
  | some l =>
    if freq = "daily" then true
    else if freq = "weekly" then decide (7 ≤ timedeltaDays now l)
    else if freq = "monthly" then decide (now.month ≠ l.month)
    else false

/-- Momentum of one price column at the last row:
`prices / prices.shift(63) - 1`, so the last observation divided by the
one 63 rows earlier; `none` models NaN (fewer than 64 rows, or either
observation missing). -/
def momentum (col : List (Option ℚ)) : Option ℚ :=
  if 64 ≤ col.length then
    match col.getD (col.length - 1) none, col.getD (col.length - 64) none with
    | some p1, some p0 => some (p1 / p0 - 1)
    | _, _ => none
  else none

/-- `momentum_score`: the last row of the momentum table, indexed by the
table's columns (NaN entries kept, as pandas does). -/
def momentumScores (table : List (Ticker × List (Option ℚ))) :
    List (Ticker × Option ℚ) :=
  table.map (fun c => (c.1, momentum c.2))

/-- The momenta that are actually defined; `rank(pct=True)` computes
percentile ranks over exactly these (NaN excluded from the count). -/
def validMoms (table : List (Ticker × List (Option ℚ))) : List ℚ :=
  (momentumScores table).filterMap (fun e => e.2)

/-- pandas percentile rank with average-rank ties: the average position
of `m` among `ms`, divided by the count. -/
def rankPct (ms : List ℚ) (m : ℚ) : ℚ :=
  (((ms.filter (fun x => x < m)).length : ℚ) +
      (((ms.filter (fun x => x = m)).length : ℚ) + 1) / 2) / (ms.length : ℚ)

/-- The signal if-chain: rank ≥ 0.8 ⇒ +5%, rank ≤ 0.2 ⇒ −5%, else 0. -/
def classifyRank (r : ℚ) : ℚ :=
  if 4/5 ≤ r then 1/20 else if r ≤ 1/5 then -(1/20) else 0

/-- `prices is None or prices.empty`: no columns or no rows. -/
def isEmptyTable (table : List (Ticker × List (Option ℚ))) : Bool :=
  table.isEmpty || table.any (fun c => c.2.isEmpty)

/-- The per-ticker body of the signal loop: a ticker outside the
table's columns is skipped (`ticker not in ranked`); a ticker whose
momentum is NaN falls through both threshold comparisons and gets an
explicit 0. -/
def signalOf (table : List (Ticker × List (Option ℚ))) (t : Ticker) : Option ℚ :=
  match findVal (momentumScores table) t with
  | none => none
  | some none => some (0 : ℚ)
  | some (some m) => some (classifyRank (rankPct (validMoms table) m))

/-- `LiveStrategyEngine.calculate_signals`, with the historical price
table passed explicitly. -/
def calculate_signals (tickers : List Ticker)
    (table : List (Ticker × List (Option ℚ))) : List (Ticker × ℚ) :=
  if isEmptyTable table then [] else
  tickers.filterMap (fun t => (signalOf table t).map (fun q => (t, q)))

/-- A sequence of `execute_trade` calls. -/
def runTrades (l : Ledger) : List (Ticker × Int × ℚ × Timestamp) → Ledger
  | [] => l
  | (t, s, p, ts) :: rest => runTrades (execute_trade l t s p ts) rest

/-- Every record's `cash_after` is the running cash just before it minus
`shares * price`. -/
def cashChain (c0 : ℚ) : List Trade → Prop
  | [] => True
  | tr :: rest => tr.cash_after = c0 - (tr.shares : ℚ) * tr.price ∧
      cashChain tr.cash_after rest

/-- The cash after the last record of the list (`c0` when empty). -/
def lastCashFrom (c0 : ℚ) : List Trade → ℚ
  | [] => c0
  | tr :: rest => lastCashFrom tr.cash_after rest


/-! ### Association-list lemmas -/

section AList

variable {α : Type}

@[simp] theorem findVal_nil (t : Ticker) : findVal ([] : List (Ticker × α)) t = none := rfl

@[simp] theorem findVal_cons (e : Ticker × α) (ps : List (Ticker × α)) (t : Ticker) :
    findVal (e :: ps) t = if e.1 = t then some e.2 else findVal ps t := rfl

theorem updatePos_cons (e : Ticker × α) (ps : List (Ticker × α)) (t : Ticker) (v : α) :
    updatePos (e :: ps) t v = if e.1 = t then (t, v) :: ps else e :: updatePos ps t v := rfl

@[simp] theorem erasePos_nil (t : Ticker) : erasePos ([] : List (Ticker × α)) t = [] := rfl

theorem erasePos_cons (e : Ticker × α) (ps : List (Ticker × α)) (t : Ticker) :
    erasePos (e :: ps) t = if e.1 = t then erasePos ps t else e :: erasePos ps t := by
  by_cases he : e.1 = t <;> simp [erasePos, List.filter_cons, he]

theorem findVal_eq_none_of_not_mem {ps : List (Ticker × α)} {t : Ticker}
    (h : t ∉ ps.map Prod.fst) : findVal ps t = none := by
  induction ps with
  | nil => rfl
  | cons e rest ih =>
    simp only [List.map_cons, List.mem_cons] at h
    push_neg at h
    rw [findVal_cons, if_neg (fun hh => h.1 hh.symm)]
    exact ih h.2

theorem mem_keys_of_findVal_some {ps : List (Ticker × α)} {t : Ticker} {v : α}
    (h : findVal ps t = some v) : t ∈ ps.map Prod.fst := by
  induction ps with
  | nil => simp at h
  | cons e rest ih =>
    rw [findVal_cons] at h
    by_cases he : e.1 = t
    · simp [he]
    · rw [if_neg he] at h
      simp [ih h]

@[simp] theorem findVal_updatePos_self (ps : List (Ticker × α)) (t : Ticker) (v : α) :
    findVal (updatePos ps t v) t = some v := by
  induction ps with
  | nil => simp [updatePos]
  | cons e rest ih =>
    rw [updatePos_cons]
    by_cases he : e.1 = t
    · simp [he]
    · rw [if_neg he, findVal_cons, if_neg he]
      exact ih

theorem findVal_updatePos_ne (ps : List (Ticker × α)) {t t' : Ticker} (v : α)
    (h : t' ≠ t) : findVal (updatePos ps t v) t' = findVal ps t' := by
  induction ps with
  | nil =>
    show findVal [(t, v)] t' = none
    rw [findVal_cons, if_neg (Ne.symm h)]
    rfl
  | cons e rest ih =>
    rw [updatePos_cons]
    by_cases he : e.1 = t
    · rw [if_pos he, findVal_cons, findVal_cons,
        if_neg (fun hh : t = t' => h hh.symm), if_neg (he ▸ fun hh : e.1 = t' => h (he ▸ hh).symm)]
    · rw [if_neg he, findVal_cons, findVal_cons]
      by_cases he' : e.1 = t'
      · rw [if_pos he', if_pos he']
      · rw [if_neg he', if_neg he', ih]

theorem mem_updatePos {ps : List (Ticker × α)} {t : Ticker} {v : α} {e : Ticker × α}
    (h : e ∈ updatePos ps t v) : e ∈ ps ∨ e = (t, v) := by
  induction ps with
  | nil => simp [updatePos] at h; simp [h]
  | cons e' rest ih =>
    rw [updatePos_cons] at h
    by_cases he : e'.1 = t
    · rw [if_pos he] at h
      rcases List.mem_cons.mp h with h | h
      · exact Or.inr h
      · exact Or.inl (List.mem_cons_of_mem _ h)
    · rw [if_neg he] at h
      rcases List.mem_cons.mp h with h | h
      · exact Or.inl (h ▸ List.mem_cons_self _ _)
      · rcases ih h with h' | h'
        · exact Or.inl (List.mem_cons_of_mem _ h')
        · exact Or.inr h'

theorem keys_updatePos_nodup {ps : List (Ticker × α)} {t : Ticker} {v : α}
    (h : (ps.map Prod.fst).Nodup) : ((updatePos ps t v).map Prod.fst).Nodup := by
  induction ps with
  | nil => simp [updatePos]
  | cons e rest ih =>
    simp only [List.map_cons, List.nodup_cons] at h
    rw [updatePos_cons]
    by_cases he : e.1 = t
    · rw [if_pos he, List.map_cons]
      refine List.nodup_cons.mpr ⟨?_, h.2⟩
      simpa [← he] using h.1
    · rw [if_neg he, List.map_cons]
      refine List.nodup_cons.mpr ⟨?_, ih h.2⟩
      intro hmem
      rcases List.mem_map.mp hmem with ⟨e', he', hfst⟩
      rcases mem_updatePos he' with h' | h'
      · exact h.1 (List.mem_map.mpr ⟨e', h', hfst⟩)
      · exact he (by rw [← hfst, h'])

@[simp] theorem findVal_erasePos_self (ps : List (Ticker × α)) (t : Ticker) :
    findVal (erasePos ps t) t = none := by
  induction ps with
  | nil => rfl
  | cons e rest ih =>
    rw [erasePos_cons]
    by_cases he : e.1 = t
    · rw [if_pos he]; exact ih
    · rw [if_neg he, findVal_cons, if_neg he]; exact ih

theorem findVal_erasePos_ne (ps : List (Ticker × α)) {t t' : Ticker}
    (h : t' ≠ t) : findVal (erasePos ps t) t' = findVal ps t' := by
  induction ps with
  | nil => rfl
  | cons e rest ih =>
    rw [erasePos_cons]
    by_cases he : e.1 = t
    · rw [if_pos he, findVal_cons, if_neg (he ▸ fun hh : e.1 = t' => h (he ▸ hh).symm)]
      exact ih
    · rw [if_neg he, findVal_cons, findVal_cons]
      by_cases he' : e.1 = t'
      · rw [if_pos he', if_pos he']
      · rw [if_neg he', if_neg he', ih]

theorem mem_erasePos {ps : List (Ticker × α)} {t : Ticker} {e : Ticker × α}
    (h : e ∈ erasePos ps t) : e ∈ ps :=
  List.mem_of_mem_filter h

theorem keys_erasePos_nodup {ps : List (Ticker × α)} {t : Ticker}
    (h : (ps.map Prod.fst).Nodup) : ((erasePos ps t).map Prod.fst).Nodup := by
  induction ps with
  | nil => simp
  | cons e rest ih =>
    simp only [List.map_cons, List.nodup_cons] at h
    rw [erasePos_cons]
    by_cases he : e.1 = t
    · rw [if_pos he]; exact ih h.2
    · rw [if_neg he, List.map_cons]
      refine List.nodup_cons.mpr ⟨?_, ih h.2⟩
      intro hmem
      rcases List.mem_map.mp hmem with ⟨e', he', hfst⟩
      exact h.1 (List.mem_map.mpr ⟨e', mem_erasePos he', hfst⟩)

theorem erasePos_eq_self_of_not_mem {ps : List (Ticker × α)} {t : Ticker}
    (h : t ∉ ps.map Prod.fst) : erasePos ps t = ps := by
  induction ps with
  | nil => rfl
  | cons e rest ih =>
    simp only [List.map_cons, List.mem_cons] at h
    push_neg at h
    rw [erasePos_cons, if_neg (fun hh => h.1 hh.symm), ih h.2]

end AList



/-! ### Portfolio-value and trade-execution lemmas -/

theorem posShares_cons_eq {e : Ticker × Int} {t : Ticker} (rest : List (Ticker × Int))
    (he : e.1 = t) : posShares (e :: rest) t = e.2 := by
  rw [posShares, findVal_cons, if_pos he]
  rfl

theorem posShares_cons_ne {e : Ticker × Int} {t : Ticker} (rest : List (Ticker × Int))
    (he : ¬e.1 = t) : posShares (e :: rest) t = posShares rest t := by
  rw [posShares, findVal_cons, if_neg he]
  rfl

theorem posShares_updatePos_self (ps : List (Ticker × Int)) (t : Ticker) (v : Int) :
    posShares (updatePos ps t v) t = v := by
  rw [posShares, findVal_updatePos_self]
  rfl

@[simp] theorem posValue_nil (cp : List (Ticker × ℚ)) : posValue [] cp = 0 := rfl

theorem posValue_cons (e : Ticker × Int) (ps : List (Ticker × Int)) (cp : List (Ticker × ℚ)) :
    posValue (e :: ps) cp = (e.2 : ℚ) * ((findVal cp e.1).getD 0) + posValue ps cp := by
  simp [posValue]

theorem posValue_updatePos (ps : List (Ticker × Int)) (cp : List (Ticker × ℚ))
    (t : Ticker) (v : Int) :
    posValue (updatePos ps t v) cp =
      posValue ps cp + ((v : ℚ) - (posShares ps t : ℚ)) * ((findVal cp t).getD 0) := by
  induction ps with
  | nil =>
    show posValue [(t, v)] cp = _
    simp [posValue_cons, posShares]
  | cons e rest ih =>
    rw [updatePos_cons]
    by_cases he : e.1 = t
    · rw [if_pos he, posValue_cons, posValue_cons, posShares_cons_eq rest he, he]
      ring
    · rw [if_neg he, posValue_cons, posValue_cons, ih, posShares_cons_ne rest he]
      ring

theorem posValue_erasePos {ps : List (Ticker × Int)} (cp : List (Ticker × ℚ)) (t : Ticker)
    (hnd : (ps.map Prod.fst).Nodup) :
    posValue (erasePos ps t) cp =
      posValue ps cp - (posShares ps t : ℚ) * ((findVal cp t).getD 0) := by
  induction ps with
  | nil => simp [posShares]
  | cons e rest ih =>
    simp only [List.map_cons, List.nodup_cons] at hnd
    rw [erasePos_cons]
    by_cases he : e.1 = t
    · rw [if_pos he, posValue_cons, posShares_cons_eq rest he,
        erasePos_eq_self_of_not_mem (he ▸ hnd.1), he]
      ring
    · rw [if_neg he, posValue_cons, posValue_cons, ih hnd.2, posShares_cons_ne rest he]
      ring

theorem execute_trade_cash (l : Ledger) (t : Ticker) (s : Int) (p : ℚ) (ts : Timestamp) :
    (execute_trade l t s p ts).cash = l.cash - (s : ℚ) * p := rfl

theorem execute_trade_positions (l : Ledger) (t : Ticker) (s : Int) (p : ℚ) (ts : Timestamp) :
    (execute_trade l t s p ts).positions =
      if posShares l.positions t + s = 0 then
        erasePos (updatePos l.positions t (posShares l.positions t + s)) t
      else updatePos l.positions t (posShares l.positions t + s) := rfl

theorem execute_trade_trade_history (l : Ledger) (t : Ticker) (s : Int) (p : ℚ)
    (ts : Timestamp) :
    (execute_trade l t s p ts).trade_history =
      l.trade_history ++ [⟨ts, t, s, p, (s : ℚ) * p, l.cash - (s : ℚ) * p⟩] := rfl

theorem execute_trade_pvh (l : Ledger) (t : Ticker) (s : Int) (p : ℚ) (ts : Timestamp) :
    (execute_trade l t s p ts).portfolio_value_history = l.portfolio_value_history := rfl

theorem execute_trade_ic (l : Ledger) (t : Ticker) (s : Int) (p : ℚ) (ts : Timestamp) :
    (execute_trade l t s p ts).initial_capital = l.initial_capital := rfl

theorem execute_trade_findVal_ne (l : Ledger) {t t' : Ticker} (s : Int) (p : ℚ)
    (ts : Timestamp) (h : t' ≠ t) :
    findVal (execute_trade l t s p ts).positions t' = findVal l.positions t' := by
  rw [execute_trade_positions]
  split
  · rw [findVal_erasePos_ne _ h, findVal_updatePos_ne _ _ h]
  · rw [findVal_updatePos_ne _ _ h]

theorem execute_trade_posShares_self (l : Ledger) (t : Ticker) (s : Int) (p : ℚ)
    (ts : Timestamp) :
    posShares (execute_trade l t s p ts).positions t = posShares l.positions t + s := by
  rw [posShares, execute_trade_positions]
  split
  · next h =>
    rw [findVal_erasePos_self]
    simpa using h.symm
  · rw [findVal_updatePos_self]
    rfl

theorem execute_trade_nodup {l : Ledger} (t : Ticker) (s : Int) (p : ℚ) (ts : Timestamp)
    (h : (l.positions.map Prod.fst).Nodup) :
    ((execute_trade l t s p ts).positions.map Prod.fst).Nodup := by
  rw [execute_trade_positions]
  split
  · exact keys_erasePos_nodup (keys_updatePos_nodup h)
  · exact keys_updatePos_nodup h

theorem execute_trade_no_zero {l : Ledger} {t : Ticker} {s : Int} {p : ℚ} {ts : Timestamp}
    (h : ∀ e ∈ l.positions, e.2 ≠ 0) :
    ∀ e ∈ (execute_trade l t s p ts).positions, e.2 ≠ 0 := by
  intro e
  rw [execute_trade_positions]
  split
  · intro he
    have hne : e.1 ≠ t := by
      have := (List.mem_filter.mp he).2
      simpa using this
    rcases mem_updatePos (mem_erasePos he) with h' | h'
    · exact h e h'
    · exact absurd (by rw [h']) hne
  · next hns =>
    intro he
    rcases mem_updatePos he with h' | h'
    · exact h e h'
    · rw [h']
      exact hns

theorem execute_trade_value {l : Ledger} {t : Ticker} (s : Int) {p : ℚ}
    {cp : List (Ticker × ℚ)} (ts : Timestamp)
    (hnd : (l.positions.map Prod.fst).Nodup) (hp : findVal cp t = some p) :
    get_portfolio_value (execute_trade l t s p ts) cp = get_portfolio_value l cp := by
  rw [get_portfolio_value, get_portfolio_value, execute_trade_cash, execute_trade_positions]
  have hq : ((posShares l.positions t : ℚ)) + (s : ℚ) =
      ((posShares l.positions t + s : Int) : ℚ) := by push_cast; ring
  split
  · next hns =>
    rw [posValue_erasePos cp t (keys_updatePos_nodup hnd),
      posValue_updatePos, posShares_updatePos_self, hp]
    have hq0 : ((posShares l.positions t : ℚ)) + (s : ℚ) = 0 := by
      rw [hq]
      exact_mod_cast congrArg (fun n : Int => (n : ℚ)) hns
    simp only [Option.getD_some]
    push_cast
    linear_combination (-p) * hq0
  · rw [posValue_updatePos, hp]
    simp only [Option.getD_some]
    push_cast
    ring


/-! ### Reconciliation-loop lemmas -/

section Fold

variable {cp : List (Ticker × ℚ)} {tsh : List (Ticker × Int)} {ts : Timestamp}

theorem rebalanceStep_unpriced {t : Ticker} (acc : Ledger)
    (hcp : findVal cp t = none) : rebalanceStep cp tsh ts acc t = acc := by
  rw [rebalanceStep, hcp]

theorem rebalanceStep_priced {t : Ticker} {p : ℚ} (acc : Ledger)
    (hcp : findVal cp t = some p) :
    rebalanceStep cp tsh ts acc t =
      (if (findVal tsh t).getD 0 - posShares acc.positions t = 0 then acc
       else execute_trade acc t ((findVal tsh t).getD 0 - posShares acc.positions t) p ts) := by
  rw [rebalanceStep, hcp]

theorem rebalanceStep_findVal_ne {t u : Ticker} (acc : Ledger) (h : t ≠ u) :
    findVal (rebalanceStep cp tsh ts acc u).positions t = findVal acc.positions t := by
  cases hcp : findVal cp u with
  | none => rw [rebalanceStep_unpriced acc hcp]
  | some p =>
    rw [rebalanceStep_priced acc hcp]
    split
    · rfl
    · exact execute_trade_findVal_ne acc _ p ts h

theorem rebalanceStep_posShares_priced {u : Ticker} {p : ℚ} (acc : Ledger)
    (hp : findVal cp u = some p) :
    posShares (rebalanceStep cp tsh ts acc u).positions u = (findVal tsh u).getD 0 := by
  rw [rebalanceStep_priced acc hp]
  split
  · next h => omega
  · rw [execute_trade_posShares_self]
    omega

theorem rebalanceStep_pvh (acc : Ledger) (u : Ticker) :
    (rebalanceStep cp tsh ts acc u).portfolio_value_history =
      acc.portfolio_value_history := by
  cases hcp : findVal cp u with
  | none => rw [rebalanceStep_unpriced acc hcp]
  | some p =>
    rw [rebalanceStep_priced acc hcp]
    split
    · rfl
    · rfl

theorem rebalanceStep_ic (acc : Ledger) (u : Ticker) :
    (rebalanceStep cp tsh ts acc u).initial_capital = acc.initial_capital := by
  cases hcp : findVal cp u with
  | none => rw [rebalanceStep_unpriced acc hcp]
  | some p =>
    rw [rebalanceStep_priced acc hcp]
    split
    · rfl
    · rfl

theorem rebalanceStep_value_nodup (acc : Ledger) (u : Ticker)
    (hnd : (acc.positions.map Prod.fst).Nodup) :
    get_portfolio_value (rebalanceStep cp tsh ts acc u) cp = get_portfolio_value acc cp ∧
      ((rebalanceStep cp tsh ts acc u).positions.map Prod.fst).Nodup := by
  cases hcp : findVal cp u with
  | none => rw [rebalanceStep_unpriced acc hcp]; exact ⟨rfl, hnd⟩
  | some p =>
    rw [rebalanceStep_priced acc hcp]
    split
    · exact ⟨rfl, hnd⟩
    · exact ⟨execute_trade_value _ ts hnd hcp, execute_trade_nodup _ _ _ _ hnd⟩

theorem foldRebalance_value_nodup (L : List Ticker) (acc : Ledger)
    (hnd : (acc.positions.map Prod.fst).Nodup) :
    get_portfolio_value (L.foldl (rebalanceStep cp tsh ts) acc) cp =
        get_portfolio_value acc cp ∧
      (((L.foldl (rebalanceStep cp tsh ts) acc).positions.map Prod.fst)).Nodup := by
  induction L generalizing acc with
  | nil => exact ⟨rfl, hnd⟩
  | cons u rest ih =>
    rcases rebalanceStep_value_nodup acc u hnd with ⟨hv, hnd'⟩
    rcases ih (rebalanceStep cp tsh ts acc u) hnd' with ⟨hv', hnd''⟩
    exact ⟨by rw [List.foldl_cons, hv', hv], by rw [List.foldl_cons]; exact hnd''⟩

theorem foldRebalance_pvh (L : List Ticker) (acc : Ledger) :
    (L.foldl (rebalanceStep cp tsh ts) acc).portfolio_value_history =
      acc.portfolio_value_history := by
  induction L generalizing acc with
  | nil => rfl
  | cons u rest ih =>
    rw [List.foldl_cons, ih, rebalanceStep_pvh]

theorem foldRebalance_ic (L : List Ticker) (acc : Ledger) :
    (L.foldl (rebalanceStep cp tsh ts) acc).initial_capital = acc.initial_capital := by
  induction L generalizing acc with
  | nil => rfl
  | cons u rest ih =>
    rw [List.foldl_cons, ih, rebalanceStep_ic]

theorem foldRebalance_findVal_not_mem {L : List Ticker} {t : Ticker} (acc : Ledger)
    (ht : t ∉ L) :
    findVal ((L.foldl (rebalanceStep cp tsh ts) acc)).positions t =
      findVal acc.positions t := by
  induction L generalizing acc with
  | nil => rfl
  | cons u rest ih =>
    simp only [List.mem_cons] at ht
    push_neg at ht
    rw [List.foldl_cons, ih _ ht.2, rebalanceStep_findVal_ne _ ht.1]

theorem foldRebalance_findVal_unpriced {L : List Ticker} {t : Ticker} (acc : Ledger)
    (hcp : findVal cp t = none) :
    findVal ((L.foldl (rebalanceStep cp tsh ts) acc)).positions t =
      findVal acc.positions t := by
  induction L generalizing acc with
  | nil => rfl
  | cons u rest ih =>
    by_cases hu : t = u
    · rw [List.foldl_cons, ih, ← hu, rebalanceStep_unpriced acc hcp]
    · rw [List.foldl_cons, ih, rebalanceStep_findVal_ne _ hu]

theorem foldRebalance_posShares_mem {L : List Ticker} {t : Ticker} {p : ℚ} (acc : Ledger)
    (hL : L.Nodup) (ht : t ∈ L) (hp : findVal cp t = some p) :
    posShares ((L.foldl (rebalanceStep cp tsh ts) acc)).positions t =
      (findVal tsh t).getD 0 := by
  induction L generalizing acc with
  | nil => simp at ht
  | cons u rest ih =>
    rw [List.nodup_cons] at hL
    rcases List.mem_cons.mp ht with rfl | hmem
    · rw [List.foldl_cons, posShares, foldRebalance_findVal_not_mem _ hL.1,
        ← posShares, rebalanceStep_posShares_priced acc hp]
    · exact ih _ hL.2 hmem

theorem rebalanceStep_fix (acc : Ledger) (u : Ticker)
    (h : ∀ p, findVal cp u = some p →
      posShares acc.positions u = (findVal tsh u).getD 0) :
    rebalanceStep cp tsh ts acc u = acc := by
  cases hcp : findVal cp u with
  | none => exact rebalanceStep_unpriced acc hcp
  | some p =>
    have hcur := h p hcp
    rw [rebalanceStep_priced acc hcp, if_pos (by omega)]

theorem foldRebalance_fix (L : List Ticker) (acc : Ledger)
    (h : ∀ u p, findVal cp u = some p →
      posShares acc.positions u = (findVal tsh u).getD 0) :
    L.foldl (rebalanceStep cp tsh ts) acc = acc := by
  induction L with
  | nil => rfl
  | cons u rest ih =>
    rw [List.foldl_cons, rebalanceStep_fix acc u (h u), ih]

end Fold


/-! ### Rebalance-level lemmas -/

theorem rebalanceFold_eq (l : Ledger) (tp cp : List (Ticker × ℚ)) (ts : Timestamp) :
    rebalanceFold l tp cp ts =
      ((l.positions.map Prod.fst ++
          (targetSharesOf (get_portfolio_value l cp) tp cp).map Prod.fst).dedup).foldl
        (rebalanceStep cp (targetSharesOf (get_portfolio_value l cp) tp cp) ts) l := rfl

theorem rebalance_positions (l : Ledger) (tp cp : List (Ticker × ℚ)) (ts : Timestamp) :
    (rebalance_portfolio l tp cp ts).positions = (rebalanceFold l tp cp ts).positions := rfl

theorem rebalance_trade_history (l : Ledger) (tp cp : List (Ticker × ℚ)) (ts : Timestamp) :
    (rebalance_portfolio l tp cp ts).trade_history =
      (rebalanceFold l tp cp ts).trade_history := rfl

theorem rebalance_cash (l : Ledger) (tp cp : List (Ticker × ℚ)) (ts : Timestamp) :
    (rebalance_portfolio l tp cp ts).cash = (rebalanceFold l tp cp ts).cash := rfl

theorem rebalance_ic (l : Ledger) (tp cp : List (Ticker × ℚ)) (ts : Timestamp) :
    (rebalance_portfolio l tp cp ts).initial_capital =
      (rebalanceFold l tp cp ts).initial_capital := rfl

theorem rebalance_pvh_eq (l : Ledger) (tp cp : List (Ticker × ℚ)) (ts : Timestamp) :
    (rebalance_portfolio l tp cp ts).portfolio_value_history =
      (rebalanceFold l tp cp ts).portfolio_value_history ++
        [⟨ts, get_portfolio_value (rebalanceFold l tp cp ts) cp,
          (get_portfolio_value (rebalanceFold l tp cp ts) cp / l.initial_capital - 1) * 100⟩] :=
  rfl

theorem rebalanceFold_value {l : Ledger} (tp cp : List (Ticker × ℚ)) (ts : Timestamp)
    (hnd : (l.positions.map Prod.fst).Nodup) :
    get_portfolio_value (rebalanceFold l tp cp ts) cp = get_portfolio_value l cp := by
  rw [rebalanceFold_eq]
  exact (foldRebalance_value_nodup _ l hnd).1

theorem rebalanceFold_nodup {l : Ledger} (tp cp : List (Ticker × ℚ)) (ts : Timestamp)
    (hnd : (l.positions.map Prod.fst).Nodup) :
    ((rebalanceFold l tp cp ts).positions.map Prod.fst).Nodup := by
  rw [rebalanceFold_eq]
  exact (foldRebalance_value_nodup _ l hnd).2

theorem rebalanceFold_pvh (l : Ledger) (tp cp : List (Ticker × ℚ)) (ts : Timestamp) :
    (rebalanceFold l tp cp ts).portfolio_value_history = l.portfolio_value_history := by
  rw [rebalanceFold_eq]
  exact foldRebalance_pvh _ l

theorem rebalanceFold_ic (l : Ledger) (tp cp : List (Ticker × ℚ)) (ts : Timestamp) :
    (rebalanceFold l tp cp ts).initial_capital = l.initial_capital := by
  rw [rebalanceFold_eq]
  exact foldRebalance_ic _ l

theorem rebalanceFold_findVal_unpriced {l : Ledger} {t : Ticker}
    (tp cp : List (Ticker × ℚ)) (ts : Timestamp) (hcp : findVal cp t = none) :
    findVal (rebalanceFold l tp cp ts).positions t = findVal l.positions t := by
  rw [rebalanceFold_eq]
  exact foldRebalance_findVal_unpriced l hcp

theorem rebalanceFold_posShares_priced {l : Ledger} {t : Ticker} {p : ℚ}
    (tp cp : List (Ticker × ℚ)) (ts : Timestamp) (hp : findVal cp t = some p) :
    posShares (rebalanceFold l tp cp ts).positions t =
      (findVal (targetSharesOf (get_portfolio_value l cp) tp cp) t).getD 0 := by
  rw [rebalanceFold_eq]
  by_cases ht : t ∈ (l.positions.map Prod.fst ++
      (targetSharesOf (get_portfolio_value l cp) tp cp).map Prod.fst).dedup
  · exact foldRebalance_posShares_mem l (List.nodup_dedup _) ht hp
  · rw [List.mem_dedup, List.mem_append] at ht
    push_neg at ht
    rw [posShares, foldRebalance_findVal_not_mem l (by
      rw [List.mem_dedup, List.mem_append]
      push_neg
      exact ht)]
    rw [findVal_eq_none_of_not_mem ht.1, findVal_eq_none_of_not_mem ht.2]

/-! ### Signal lemmas -/

theorem findVal_momentumScores (table : List (Ticker × List (Option ℚ))) (t : Ticker) :
    findVal (momentumScores table) t = (findVal table t).map (fun col => momentum col) := by
  induction table with
  | nil => rfl
  | cons c rest ih =>
    show findVal ((c.1, momentum c.2) :: momentumScores rest) t = _
    rw [findVal_cons, findVal_cons]
    by_cases hc : c.1 = t
    · rw [if_pos hc, if_pos hc]
      rfl
    · rw [if_neg hc, if_neg hc, ih]

theorem findVal_filterMap_option (tickers : List Ticker) (f : Ticker → Option ℚ)
    (t : Ticker) :
    findVal (tickers.filterMap (fun u => (f u).map (fun q => (u, q)))) t =
      if t ∈ tickers then f t else none := by
  induction tickers with
  | nil => rfl
  | cons u rest ih =>
    rw [List.filterMap_cons]
    cases hf : f u with
    | none =>
      simp only [Option.map_none']
      rw [ih]
      by_cases hu : t = u
      · subst hu
        by_cases hmem : t ∈ rest
        · rw [if_pos hmem, if_pos (List.mem_cons_self _ _)]
        · rw [if_neg hmem, if_pos (List.mem_cons_self _ _), hf]
      · by_cases hmem : t ∈ rest
        · rw [if_pos hmem, if_pos (List.mem_cons_of_mem _ hmem)]
        · rw [if_neg hmem, if_neg (by
            intro hor
            exact (List.mem_cons.mp hor).elim hu hmem)]
    | some q =>
      simp only [Option.map_some']
      rw [findVal_cons]
      by_cases hu : u = t
      · subst hu
        rw [if_pos rfl, if_pos (List.mem_cons_self _ _), hf]
      · rw [if_neg hu, ih]
        by_cases hmem : t ∈ rest
        · rw [if_pos hmem, if_pos (List.mem_cons_of_mem _ hmem)]
        · rw [if_neg hmem, if_neg (by
            intro hor
            exact (List.mem_cons.mp hor).elim (fun h => hu h.symm) hmem)]


/-! ### Rounding and target-share lemmas -/

/-- Python `int()` on an exact rational: floor for nonnegative values,
ceiling for negative ones (truncation toward zero). -/
theorem pyInt_eq_floor_or_ceil (q : ℚ) : pyInt q = if 0 ≤ q then ⌊q⌋ else ⌈q⌉ := by
  rw [pyInt]
  by_cases h : 0 ≤ q
  · rw [if_pos h, Rat.floor_def]
    exact Int.tdiv_eq_ediv (Rat.num_nonneg.mpr h) (Int.natCast_nonneg _)
  · rw [if_neg h]
    have hceil : ⌈q⌉ = -⌊-q⌋ := by
      rw [Int.floor_neg, neg_neg]
    have hnum : (-q).num = -q.num := Rat.neg_num q
    have hden : (-q).den = q.den := Rat.neg_den q
    have hpos : 0 ≤ (-q).num := Rat.num_nonneg.mpr (by linarith [not_le.mp h])
    have htd : (-q.num).tdiv q.den = -(q.num.tdiv q.den) := Int.neg_tdiv _ _
    rw [hceil, Rat.floor_def, hnum, hden, ← Int.tdiv_eq_ediv (hnum ▸ hpos)
      (Int.natCast_nonneg _), htd, neg_neg]

theorem targetEntry_of_no_price {cp : List (Ticker × ℚ)} {e : Ticker × ℚ} (total : ℚ)
    (hp : findVal cp e.1 = none) : targetEntry total cp e = none := by
  rw [targetEntry, hp]

theorem targetEntry_of_price {cp : List (Ticker × ℚ)} {e : Ticker × ℚ} {p : ℚ}
    (total : ℚ) (hp : findVal cp e.1 = some p) :
    targetEntry total cp e =
      if p = 0 then none else some (e.1, pyInt (total * e.2 / p)) := by
  rw [targetEntry, hp]

theorem targetEntry_cases (total : ℚ) (cp : List (Ticker × ℚ)) (e : Ticker × ℚ) :
    targetEntry total cp e = none ∨
      ∃ p, findVal cp e.1 = some p ∧ p ≠ 0 ∧
        targetEntry total cp e = some (e.1, pyInt (total * e.2 / p)) := by
  cases hp : findVal cp e.1 with
  | none => exact Or.inl (targetEntry_of_no_price total hp)
  | some p =>
    by_cases hp0 : p = 0
    · exact Or.inl (by rw [targetEntry_of_price total hp, if_pos hp0])
    · exact Or.inr ⟨p, rfl, hp0, by rw [targetEntry_of_price total hp, if_neg hp0]⟩

theorem findVal_targetSharesOf {tp cp : List (Ticker × ℚ)} {t : Ticker} {w p : ℚ}
    (total : ℚ) (hw : findVal tp t = some w) (hp : findVal cp t = some p)
    (hp0 : p ≠ 0) :
    findVal (targetSharesOf total tp cp) t = some (pyInt (total * w / p)) := by
  induction tp with
  | nil => simp at hw
  | cons e rest ih =>
    rw [findVal_cons] at hw
    rw [targetSharesOf, List.filterMap_cons]
    by_cases he : e.1 = t
    · rw [if_pos he] at hw
      have hw' : e.2 = w := Option.some_injective _ hw
      have he' : findVal cp e.1 = some p := by rw [he, hp]
      rw [targetEntry_of_price total he', if_neg hp0, findVal_cons, if_pos he, hw']
    · rw [if_neg he] at hw
      rcases targetEntry_cases total cp e with hcase | ⟨p', _, _, hcase⟩
      · rw [hcase]
        exact ih hw
      · rw [hcase, findVal_cons, if_neg he]
        exact ih hw

theorem targetSharesOf_empty (total : ℚ) (cp : List (Ticker × ℚ)) :
    targetSharesOf total [] cp = [] := rfl


/-! ### Further helper lemmas -/

theorem findVal_some_mem {α : Type} {ps : List (Ticker × α)} {t : Ticker} {v : α}
    (h : findVal ps t = some v) : (t, v) ∈ ps := by
  induction ps with
  | nil => simp at h
  | cons e rest ih =>
    rw [findVal_cons] at h
    by_cases he : e.1 = t
    · rw [if_pos he] at h
      have : e.2 = v := Option.some_injective _ h
      have he' : e = (t, v) := by
        cases e
        simp_all
      exact he' ▸ List.mem_cons_self _ _
    · rw [if_neg he] at h
      exact List.mem_cons_of_mem _ (ih h)

theorem findVal_isSome_of_mem_keys {α : Type} {ps : List (Ticker × α)} {t : Ticker}
    (h : t ∈ ps.map Prod.fst) : ∃ v, findVal ps t = some v := by
  induction ps with
  | nil => simp at h
  | cons e rest ih =>
    by_cases he : e.1 = t
    · exact ⟨e.2, by rw [findVal_cons, if_pos he]⟩
    · have hmem : t ∈ rest.map Prod.fst := by
        rcases List.mem_cons.mp (by simpa only [List.map_cons] using h) with h' | h'
        · exact absurd h'.symm he
        · exact h'
      obtain ⟨v, hv⟩ := ih hmem
      exact ⟨v, by rw [findVal_cons, if_neg he, hv]⟩

theorem findVal_eq_none_of_no_zero {ps : List (Ticker × Int)} {t : Ticker}
    (h : ∀ e ∈ ps, e.2 ≠ 0) (hz : posShares ps t = 0) : findVal ps t = none := by
  cases hfv : findVal ps t with
  | none => rfl
  | some v =>
    have hv : v = 0 := by
      rw [posShares, hfv] at hz
      simpa using hz
    exact absurd (hv ▸ h (t, v) (findVal_some_mem hfv)) (by simp)

section FoldMore

variable {cp : List (Ticker × ℚ)} {tsh : List (Ticker × Int)} {ts : Timestamp}

theorem rebalanceStep_no_zero (acc : Ledger) (u : Ticker)
    (h : ∀ e ∈ acc.positions, e.2 ≠ 0) :
    ∀ e ∈ (rebalanceStep cp tsh ts acc u).positions, e.2 ≠ 0 := by
  cases hcp : findVal cp u with
  | none => rw [rebalanceStep_unpriced acc hcp]; exact h
  | some p =>
    rw [rebalanceStep_priced acc hcp]
    split
    · exact h
    · exact execute_trade_no_zero h

theorem foldRebalance_no_zero (L : List Ticker) (acc : Ledger)
    (h : ∀ e ∈ acc.positions, e.2 ≠ 0) :
    ∀ e ∈ (L.foldl (rebalanceStep cp tsh ts) acc).positions, e.2 ≠ 0 := by
  induction L generalizing acc with
  | nil => exact h
  | cons u rest ih =>
    rw [List.foldl_cons]
    exact ih _ (rebalanceStep_no_zero acc u h)

theorem rebalanceStep_empty_target_len (acc : Ledger) (u : Ticker) {v : Int}
    (hcur : findVal acc.positions u = some v) (hv : v ≠ 0) :
    (rebalanceStep cp [] ts acc u).trade_history.length =
      acc.trade_history.length + (if (findVal cp u).isSome then 1 else 0) := by
  cases hcp : findVal cp u with
  | none =>
    rw [rebalanceStep_unpriced acc hcp]
    simp
  | some p =>
    rw [rebalanceStep_priced acc hcp]
    rw [if_neg (by
      rw [findVal_nil, posShares, hcur]
      simpa using hv)]
    rw [execute_trade_trade_history]
    simp

theorem foldRebalance_empty_targets (L : List Ticker) (acc : Ledger)
    (hL : L.Nodup)
    (hmem : ∀ t ∈ L, ∃ v, findVal acc.positions t = some v ∧ v ≠ 0) :
    ((L.foldl (rebalanceStep cp ([] : List (Ticker × Int)) ts) acc)).trade_history.length =
      acc.trade_history.length +
        (L.filter (fun t => (findVal cp t).isSome)).length := by
  induction L generalizing acc with
  | nil => simp
  | cons u rest ih =>
    rw [List.nodup_cons] at hL
    obtain ⟨v, hcur, hv⟩ := hmem u (List.mem_cons_self _ _)
    have hrest : ∀ t ∈ rest, ∃ w, findVal (rebalanceStep cp [] ts acc u).positions t =
        some w ∧ w ≠ 0 := by
      intro t htmem
      have hne : t ≠ u := fun h => hL.1 (h ▸ htmem)
      rw [rebalanceStep_findVal_ne _ hne]
      exact hmem t (List.mem_cons_of_mem _ htmem)
    rw [List.foldl_cons, ih _ hL.2 hrest,
      rebalanceStep_empty_target_len acc u hcur hv, List.filter_cons]
    by_cases hps : (findVal cp u).isSome
    · simp only [hps, if_pos, if_true, List.length_cons]
      omega
    · simp only [Bool.not_eq_true] at hps
      simp only [hps, Bool.false_eq_true, if_false, List.length_cons]
      omega

end FoldMore


/-! ### Concrete fixtures -/

def tsA : Timestamp := ⟨2024, 1, 19738, 0⟩

def tsB : Timestamp := ⟨2024, 2, 19769, 0⟩

def pricesX : List (Ticker × ℚ) := [("X", 5)]

def ledgerHeldX : Ledger := ⟨100000, 0, [("X", 10)], [], []⟩

def ledgerCash : Ledger := ⟨100000, 100000, [], [], []⟩

def ledgerHeldY : Ledger := ⟨100000, 0, [("Y", 7)], [], []⟩

/-! ### Claim theorems -/

/-- C3: along any sequence of `execute_trade` calls, every appended
trade record satisfies `cash_after = cash_before - shares * price`
exactly (the running cash threaded through `cashChain`), and the
ledger's cash after the sequence equals the last record's `cash_after`. -/
theorem claim_C3_cash_conservation (l : Ledger)
    (instrs : List (Ticker × Int × ℚ × Timestamp)) :
    ∃ newTrades, (runTrades l instrs).trade_history = l.trade_history ++ newTrades ∧
      cashChain l.cash newTrades ∧
      (runTrades l instrs).cash = lastCashFrom l.cash newTrades := by
  induction instrs generalizing l with
  | nil => exact ⟨[], by simp [runTrades], trivial, rfl⟩
  | cons i rest ih =>
    obtain ⟨t, s, p, ts⟩ := i
    obtain ⟨new, hh, hc, hcash⟩ := ih (execute_trade l t s p ts)
    refine ⟨⟨ts, t, s, p, (s : ℚ) * p, l.cash - (s : ℚ) * p⟩ :: new, ?_, ?_, ?_⟩
    · show (runTrades (execute_trade l t s p ts) rest).trade_history = _
      rw [hh, execute_trade_trade_history]
      simp
    · exact ⟨rfl, hc⟩
    · show (runTrades (execute_trade l t s p ts) rest).cash = _
      exact hcash

/-- C7: an instrument that is held but absent from `current_prices` is
neither traded nor deleted by `rebalance_portfolio`: its position entry
is exactly preserved. -/
theorem claim_C7_no_phantom_liquidation (l : Ledger) (tp cp : List (Ticker × ℚ))
    (ts : Timestamp) (t : Ticker) (q : Int)
    (hheld : findVal l.positions t = some q) (hcp : findVal cp t = none) :
    findVal (rebalance_portfolio l tp cp ts).positions t = some q := by
  rw [rebalance_positions, rebalanceFold_findVal_unpriced tp cp ts hcp, hheld]

theorem claim_C7_witness :
    (findVal ledgerHeldY.positions "Y" = some 7 ∧ findVal pricesX "Y" = none) ∧
      findVal (rebalance_portfolio ledgerHeldY [] pricesX tsA).positions "Y" = some 7 :=
  ⟨⟨rfl, rfl⟩, claim_C7_no_phantom_liquidation ledgerHeldY [] pricesX tsA "Y" 7 rfl rfl⟩

/-- C8: starting from positions with no zero entries, `execute_trade`
never leaves an exactly-zero entry in the positions mapping (a position
driven to zero is removed). -/
theorem claim_C8_position_pruning (l : Ledger) (t : Ticker) (s : Int) (p : ℚ)
    (ts : Timestamp) (h : ∀ e ∈ l.positions, e.2 ≠ 0) :
    ∀ e ∈ (execute_trade l t s p ts).positions, e.2 ≠ 0 :=
  execute_trade_no_zero h

theorem claim_C8_witness :
    (∀ e ∈ ledgerHeldX.positions, e.2 ≠ 0) ∧
      ∀ e ∈ (execute_trade ledgerHeldX "X" (-10) 5 tsA).positions, e.2 ≠ 0 :=
  ⟨by decide, claim_C8_position_pruning ledgerHeldX "X" (-10) 5 tsA (by decide)⟩

/-- C9: with duplicate-free position keys, the valuation record appended
by `rebalance_portfolio` carries exactly the portfolio value computed at
the start of the call: the trades of a rebalance never change total
portfolio value in exact arithmetic. -/
theorem claim_C9_value_conservation (l : Ledger) (tp cp : List (Ticker × ℚ))
    (ts : Timestamp) (hnd : (l.positions.map Prod.fst).Nodup) :
    (rebalance_portfolio l tp cp ts).portfolio_value_history =
      l.portfolio_value_history ++
        [⟨ts, get_portfolio_value l cp,
          (get_portfolio_value l cp / l.initial_capital - 1) * 100⟩] := by
  rw [rebalance_pvh_eq, rebalanceFold_pvh, rebalanceFold_value tp cp ts hnd]

theorem claim_C9_witness :
    (ledgerHeldX.positions.map Prod.fst).Nodup ∧
      (rebalance_portfolio ledgerHeldX [] pricesX tsA).portfolio_value_history =
        ledgerHeldX.portfolio_value_history ++
          [⟨tsA, get_portfolio_value ledgerHeldX pricesX,
            (get_portfolio_value ledgerHeldX pricesX / ledgerHeldX.initial_capital - 1)
              * 100⟩] :=
  ⟨by decide, claim_C9_value_conservation ledgerHeldX [] pricesX tsA (by decide)⟩

/-- C10: with monthly frequency, `should_rebalance` compares only the
month-of-year fields, so any two timestamps with the same month number
give `false`, even in different years. -/
theorem claim_C10_monthly_same_month (last now : Timestamp)
    (h : now.month = last.month) :
    should_rebalance "monthly" (some last) now = false := by
  show (if ("monthly" : String) = "daily" then true
    else if ("monthly" : String) = "weekly" then decide (7 ≤ timedeltaDays now last)
    else if ("monthly" : String) = "monthly" then decide (now.month ≠ last.month)
    else false) = false
  rw [if_neg (by decide), if_neg (by decide), if_pos rfl, h]
  simp

theorem claim_C10_witness :
    (⟨2025, 1, 20103, 0⟩ : Timestamp).month = (⟨2024, 1, 19738, 0⟩ : Timestamp).month ∧
      should_rebalance "monthly" (some ⟨2024, 1, 19738, 0⟩) ⟨2025, 1, 20103, 0⟩ = false :=
  ⟨rfl, claim_C10_monthly_same_month ⟨2024, 1, 19738, 0⟩ ⟨2025, 1, 20103, 0⟩ rfl⟩


/-- C4: with duplicate-free position keys and positive prices, a second
`rebalance_portfolio` call with identical targets and prices executes no
trades: all deltas are zero, so the trade history is unchanged. -/
theorem claim_C4_rebalance_idempotent (l : Ledger) (tp cp : List (Ticker × ℚ))
    (ts1 ts2 : Timestamp) (hnd : (l.positions.map Prod.fst).Nodup)
    (hpos : ∀ e ∈ cp, 0 < e.2) :
    (rebalance_portfolio (rebalance_portfolio l tp cp ts1) tp cp ts2).trade_history =
      (rebalance_portfolio l tp cp ts1).trade_history := by
  have _hpos := hpos
  have hval : get_portfolio_value (rebalance_portfolio l tp cp ts1) cp =
      get_portfolio_value l cp := by
    have h1 : get_portfolio_value (rebalance_portfolio l tp cp ts1) cp =
        get_portfolio_value (rebalanceFold l tp cp ts1) cp := rfl
    rw [h1]
    exact rebalanceFold_value tp cp ts1 hnd
  have hfix : rebalanceFold (rebalance_portfolio l tp cp ts1) tp cp ts2 =
      rebalance_portfolio l tp cp ts1 := by
    rw [rebalanceFold_eq, hval]
    apply foldRebalance_fix
    intro u p hp
    have h2 : (rebalance_portfolio l tp cp ts1).positions =
        (rebalanceFold l tp cp ts1).positions := rfl
    rw [h2]
    exact rebalanceFold_posShares_priced tp cp ts1 hp
  rw [rebalance_trade_history, hfix]

theorem claim_C4_witness :
    ((ledgerCash.positions.map Prod.fst).Nodup ∧ ∀ e ∈ pricesX, 0 < e.2) ∧
      (rebalance_portfolio (rebalance_portfolio ledgerCash [("X", 1)] pricesX tsA)
          [("X", 1)] pricesX tsB).trade_history =
        (rebalance_portfolio ledgerCash [("X", 1)] pricesX tsA).trade_history :=
  ⟨⟨by decide, by decide⟩,
    claim_C4_rebalance_idempotent ledgerCash [("X", 1)] pricesX tsA tsB
      (by decide) (by decide)⟩

/-! Fixtures for the weekly-scheduler claim: 23:00 on epoch day 0
versus 01:00 on epoch day 7: the calendar-day difference is 7 but only
6 days 2 hours have elapsed. -/

def tsWlast : Timestamp := ⟨2024, 1, 0, 82800⟩

def tsWnow : Timestamp := ⟨2024, 1, 7, 3600⟩

/-- C6 counterexample: the calendar-day difference between the fixtures
is 7 (so the claim requires `true`), but `should_rebalance` returns
`false`, because `timedelta.days` floors the elapsed seconds. -/
theorem claim_C6_counterexample :
    7 ≤ tsWnow.epochDay - tsWlast.epochDay ∧
      should_rebalance "weekly" (some tsWlast) tsWnow = false := by decide

/-- C6 amended: with weekly frequency, `should_rebalance` returns true
iff at least 7*86400 seconds have elapsed, i.e. the floor of elapsed
seconds / 86400 is at least 7 — not the calendar-day difference. -/
theorem claim_C6_weekly_elapsed (last now : Timestamp) :
    should_rebalance "weekly" (some last) now = true ↔
      7 * 86400 ≤ now.epochSeconds - last.epochSeconds := by
  show (if ("weekly" : String) = "daily" then true
    else if ("weekly" : String) = "weekly" then decide (7 ≤ timedeltaDays now last)
    else if ("weekly" : String) = "monthly" then decide (now.month ≠ last.month)
    else false) = true ↔ _
  rw [if_neg (by decide), if_pos rfl, decide_eq_true_eq, timedeltaDays,
    Int.fdiv_eq_ediv _ (by norm_num), Int.le_ediv_iff_mul_le (by norm_num)]


/-! Fixtures for the rounding claim: total value 100000, target weight
-1/20, price 3, so the exact quotient is -5000/3. -/

def pricesX3 : List (Ticker × ℚ) := [("X", 3)]

def shortTargets : List (Ticker × ℚ) := [("X", -(1/20))]

/-- C5 counterexample: on a 100000 portfolio with weight -1/20 at price
3 the engine computes -1666 target shares (truncation toward zero),
while the mathematical floor of the quotient is -1667. -/
theorem claim_C5_counterexample :
    findVal (targetSharesOf (get_portfolio_value ledgerCash pricesX3)
        shortTargets pricesX3) "X" = some (-1666) ∧
      ⌊get_portfolio_value ledgerCash pricesX3 * (-(1/20)) / 3⌋ = -1667 := by
  have htot : get_portfolio_value ledgerCash pricesX3 = 100000 := by
    show (100000 : ℚ) + posValue [] pricesX3 = 100000
    rw [posValue_nil, add_zero]
  have hq : (100000 : ℚ) * (-(1/20)) / 3 = -5000/3 := by norm_num
  have hceil : ⌈(-5000/3 : ℚ)⌉ = (-1666 : Int) := by
    rw [Int.ceil_eq_iff]
    constructor
    · norm_num
    · norm_num
  have hfloor : ⌊(-5000/3 : ℚ)⌋ = (-1667 : Int) := by
    rw [Int.floor_eq_iff]
    constructor
    · norm_num
    · norm_num
  constructor
  · rw [findVal_targetSharesOf (get_portfolio_value ledgerCash pricesX3)
      (show findVal shortTargets "X" = some (-(1/20)) from rfl)
      (show findVal pricesX3 "X" = some 3 from rfl)
      (show (3 : ℚ) ≠ 0 by decide), htot, hq, pyInt_eq_floor_or_ceil,
      if_neg (by norm_num), hceil]
  · rw [htot, hq, hfloor]

/-- C5 amended: for every targeted instrument with a known nonzero
price, `rebalance_portfolio` computes `targetShares` as the truncation
toward zero of `totalValue * weight / price`: the floor for nonnegative
quotients but the ceiling for negative quotients (shorts), not the
mathematical floor throughout. -/
theorem claim_C5_truncation (l : Ledger) (tp cp : List (Ticker × ℚ)) (t : Ticker)
    (w p : ℚ) (hw : findVal tp t = some w) (hp : findVal cp t = some p)
    (hp0 : p ≠ 0) :
    findVal (targetSharesOf (get_portfolio_value l cp) tp cp) t =
      some (if 0 ≤ get_portfolio_value l cp * w / p
        then ⌊get_portfolio_value l cp * w / p⌋
        else ⌈get_portfolio_value l cp * w / p⌉) := by
  rw [findVal_targetSharesOf (get_portfolio_value l cp) hw hp hp0,
    pyInt_eq_floor_or_ceil]

theorem claim_C5_witness :
    (findVal shortTargets "X" = some (-(1/20)) ∧ findVal pricesX3 "X" = some 3 ∧
        (3 : ℚ) ≠ 0) ∧
      findVal (targetSharesOf (get_portfolio_value ledgerCash pricesX3)
          shortTargets pricesX3) "X" =
        some (if 0 ≤ get_portfolio_value ledgerCash pricesX3 * (-(1/20)) / 3
          then ⌊get_portfolio_value ledgerCash pricesX3 * (-(1/20)) / 3⌋
          else ⌈get_portfolio_value ledgerCash pricesX3 * (-(1/20)) / 3⌉) :=
  ⟨⟨rfl, rfl, by decide⟩,
    claim_C5_truncation ledgerCash shortTargets pricesX3 "X" (-(1/20)) 3
      (show findVal shortTargets "X" = some (-(1/20)) from rfl)
      (show findVal pricesX3 "X" = some 3 from rfl)
      (show (3 : ℚ) ≠ 0 by decide)⟩


/-- C1 counterexample: with a held position, a known price, and an
empty targetWeights mapping, `rebalance_portfolio` executes one trade
and deletes the position, instead of "zero trades, ledger unchanged". -/
theorem claim_C1_counterexample :
    findVal ledgerHeldX.positions "X" = some 10 ∧
      (rebalance_portfolio ledgerHeldX [] pricesX tsA).trade_history.length =
        ledgerHeldX.trade_history.length + 1 ∧
      findVal (rebalance_portfolio ledgerHeldX [] pricesX tsA).positions "X" = none := by
  decide

/-- C1 amended: with an empty targetWeights mapping,
`rebalance_portfolio` liquidates every held position whose instrument
has a quote in currentPrices (its entry is removed and one sell trade is
recorded per such instrument), while held instruments without a quote
keep their exact entries; the number of executed trades equals the
number of held instruments with a quote. -/
theorem claim_C1_empty_targets (l : Ledger) (cp : List (Ticker × ℚ)) (ts : Timestamp)
    (hnd : (l.positions.map Prod.fst).Nodup)
    (hnz : ∀ e ∈ l.positions, e.2 ≠ 0) :
    (∀ t p, findVal cp t = some p →
        findVal (rebalance_portfolio l [] cp ts).positions t = none) ∧
    (∀ t, findVal cp t = none →
        findVal (rebalance_portfolio l [] cp ts).positions t = findVal l.positions t) ∧
    (rebalance_portfolio l [] cp ts).trade_history.length =
      l.trade_history.length +
        (l.positions.filter (fun e => (findVal cp e.1).isSome)).length := by
  have hfold : rebalanceFold l [] cp ts =
      (l.positions.map Prod.fst).foldl
        (rebalanceStep cp ([] : List (Ticker × Int)) ts) l := by
    rw [rebalanceFold_eq, targetSharesOf_empty, List.map_nil, List.append_nil,
      List.dedup_eq_self.mpr hnd]
  refine ⟨?_, ?_, ?_⟩
  · intro t p hp
    rw [rebalance_positions, hfold]
    have hnz' : ∀ e ∈ ((l.positions.map Prod.fst).foldl
        (rebalanceStep cp ([] : List (Ticker × Int)) ts) l).positions, e.2 ≠ 0 :=
      foldRebalance_no_zero _ l hnz
    by_cases hmem : t ∈ l.positions.map Prod.fst
    · have hz : posShares ((l.positions.map Prod.fst).foldl
          (rebalanceStep cp ([] : List (Ticker × Int)) ts) l).positions t = 0 := by
        have hz' : posShares ((l.positions.map Prod.fst).foldl
            (rebalanceStep cp ([] : List (Ticker × Int)) ts) l).positions t =
              (findVal ([] : List (Ticker × Int)) t).getD 0 :=
          foldRebalance_posShares_mem l hnd hmem hp
        simpa using hz'
      exact findVal_eq_none_of_no_zero hnz' hz
    · rw [foldRebalance_findVal_not_mem l hmem]
      exact findVal_eq_none_of_not_mem hmem
  · intro t hcp
    rw [rebalance_positions, hfold, foldRebalance_findVal_unpriced l hcp]
  · rw [rebalance_trade_history, hfold]
    have hmem : ∀ t ∈ l.positions.map Prod.fst,
        ∃ v, findVal l.positions t = some v ∧ v ≠ 0 := by
      intro t ht
      obtain ⟨v, hv⟩ := findVal_isSome_of_mem_keys ht
      exact ⟨v, hv, hnz (t, v) (findVal_some_mem hv)⟩
    rw [foldRebalance_empty_targets _ l hnd hmem]
    congr 1
    have hfm : (l.positions.map Prod.fst).filter (fun t => (findVal cp t).isSome) =
        (l.positions.filter (fun e => (findVal cp e.1).isSome)).map Prod.fst := by
      rw [List.filter_map]
      rfl
    rw [hfm, List.length_map]

theorem claim_C1_witness :
    ((ledgerHeldX.positions.map Prod.fst).Nodup ∧
        ∀ e ∈ ledgerHeldX.positions, e.2 ≠ 0) ∧
      ((∀ t p, findVal pricesX t = some p →
          findVal (rebalance_portfolio ledgerHeldX [] pricesX tsA).positions t = none) ∧
        (∀ t, findVal pricesX t = none →
          findVal (rebalance_portfolio ledgerHeldX [] pricesX tsA).positions t =
            findVal ledgerHeldX.positions t) ∧
        (rebalance_portfolio ledgerHeldX [] pricesX tsA).trade_history.length =
          ledgerHeldX.trade_history.length +
            (ledgerHeldX.positions.filter
              (fun e => (findVal pricesX e.1).isSome)).length) :=
  ⟨⟨by decide, by decide⟩,
    claim_C1_empty_targets ledgerHeldX pricesX tsA (by decide) (by decide)⟩


/-! Fixtures for the signal claim: four instruments with full 64-row
histories and distinct momenta, and one instrument `E` whose first
observation is missing (63 observations). -/

def colOf (p0 p1 : ℚ) : List (Option ℚ) := List.replicate 63 (some p0) ++ [some p1]

def shortCol : List (Option ℚ) := none :: (List.replicate 62 (some 1) ++ [some 1])

def sampleTickers : List Ticker := ["A", "B", "C", "D", "E"]

def sampleTable : List (Ticker × List (Option ℚ)) :=
  [("A", colOf 1 2), ("B", colOf 1 3), ("C", colOf 1 4), ("D", colOf 1 5),
    ("E", shortCol)]

/-- C2 counterexample: instrument `E` has only 63 observations (fewer
than 64), yet `calculate_signals` emits an explicit 0-weight entry for
it rather than no entry. -/
theorem claim_C2_counterexample :
    (shortCol.filterMap id).length = 63 ∧
      findVal (calculate_signals sampleTickers sampleTable) "E" = some 0 := by
  decide

/-- C2 amended: for a non-empty price table, a requested ticker gets no
signal entry only when it is absent from the table's columns; a column
whose momentum is undefined (NaN) gets an explicit 0 weight; and a
column with defined momentum is classified by its percentile rank taken
over `validMoms`, the momenta of only the instruments with defined
momentum (instruments with insufficient history are excluded from the
ranking population but still receive an explicit 0). -/
theorem claim_C2_signal_classification (tickers : List Ticker)
    (table : List (Ticker × List (Option ℚ))) (t : Ticker)
    (hne : isEmptyTable table = false) (hmem : t ∈ tickers) :
    (findVal table t = none → findVal (calculate_signals tickers table) t = none) ∧
    (∀ col, findVal table t = some col → momentum col = none →
        findVal (calculate_signals tickers table) t = some 0) ∧
    (∀ col m, findVal table t = some col → momentum col = some m →
        findVal (calculate_signals tickers table) t =
          some (classifyRank (rankPct (validMoms table) m))) := by
  have hkey : findVal (calculate_signals tickers table) t = signalOf table t := by
    rw [calculate_signals, if_neg (by rw [hne]; exact Bool.false_ne_true),
      findVal_filterMap_option, if_pos hmem]
  refine ⟨?_, ?_, ?_⟩
  · intro h
    rw [hkey, signalOf, findVal_momentumScores, h, Option.map_none']
  · intro col hcol hmom
    rw [hkey, signalOf, findVal_momentumScores, hcol, Option.map_some', hmom]
  · intro col m hcol hmom
    rw [hkey, signalOf, findVal_momentumScores, hcol, Option.map_some', hmom]

theorem claim_C2_witness :
    (isEmptyTable sampleTable = false ∧ "E" ∈ sampleTickers) ∧
      ((findVal sampleTable "E" = none →
          findVal (calculate_signals sampleTickers sampleTable) "E" = none) ∧
        (∀ col, findVal sampleTable "E" = some col → momentum col = none →
          findVal (calculate_signals sampleTickers sampleTable) "E" = some 0) ∧
        (∀ col m, findVal sampleTable "E" = some col → momentum col = some m →
          findVal (calculate_signals sampleTickers sampleTable) "E" =
            some (classifyRank (rankPct (validMoms sampleTable) m)))) :=
  ⟨⟨by decide, by decide⟩,
    claim_C2_signal_classification sampleTickers sampleTable "E" (by decide) (by decide)⟩

end Trading
